import Mathlib

/-!
Verification of the interval-containment hierarchy builder implemented twice in
this repository: `build_module_hierarchy` (generate_hierarchy_excel.py) and
`parse_trace_hierarchy` (nvtx_hierarchy_tree.py).

Events are Python dicts read through `name` / `ts` / `dur`; we model them as
records with those three fields (Python `==` on the dicts is value equality,
modelled as decidable equality of the record).  Python's unbounded signed ints
become `Int`.  The `min()` call on an empty sequence raises `ValueError`; the
builders are therefore modelled as returning `Option` results, `none` standing
for the raised error.  `parse_trace_hierarchy` additionally sorts its input
list in place, so its model returns the final state of that list as a second
component.
-/

structure Event where
  name : String
  ts : Int
  dur : Int
deriving DecidableEq, Repr

def endTime (e : Event) : Int := e.ts + e.dur

/-- `end_time` record appended to the `hierarchy` output list by both builders. -/
structure Entry where
  name : String
  depth : Nat
  start_time : Int
  duration : Int
  end_time : Int
deriving DecidableEq, Repr

def mkEntry (node : Event) (depth : Nat) : Entry :=
  { name := node.name, depth := depth, start_time := node.ts,
    duration := node.dur, end_time := endTime node }

/-- Recover the `(name, start, duration)` triple an output entry was built from. -/
def keyOf (en : Entry) : Event :=
  { name := en.name, ts := en.start_time, dur := en.duration }

/-- `x.get("ts") <= y.get("ts")`: the sort key both builders use. -/
def tsLe (a b : Event) : Prop := a.ts ≤ b.ts

instance : DecidableRel tsLe := fun a b => inferInstanceAs (Decidable (a.ts ≤ b.ts))

instance : IsTotal Event tsLe := ⟨fun a b => Int.le_total a.ts b.ts⟩

instance : IsTrans Event tsLe := ⟨fun _ _ _ => Int.le_trans⟩

/-- Python's stable `sort(key=lambda x: x.get("ts", 0))`. -/
def sortByTs (events : List Event) : List Event := List.insertionSort tsLe events

/-- The containment test of the root-selection loops (lines 40-44 of
nvtx_hierarchy_tree.py, lines 74-77 of generate_hierarchy_excel.py):
`other_ts <= ts and other_end >= end_time` refined by
`other_ts < ts or other_end > end_time`. -/
def rootContains (other e : Event) : Bool :=
  (other.ts ≤ e.ts && endTime other ≥ endTime e) &&
    (other.ts < e.ts || endTime other > endTime e)

/-- The child-candidacy test of both recursive builders:
`child_ts >= node_ts and child_end <= node_end and (child_ts > node_ts or child_end < node_end)`. -/
def childCandidate (node e : Event) : Bool :=
  (e.ts ≥ node.ts && endTime e ≤ endTime node) &&
    (e.ts > node.ts || endTime e < endTime node)

/-- The non-strict test used against already-collected children
(`other_ts <= child_ts and other_end >= child_end`). -/
def weakContains (a b : Event) : Bool :=
  a.ts ≤ b.ts && endTime a ≥ endTime b

/-- The specification's containment predicate, written from the spec's words:
`a.start <= b.start AND a.end >= b.end AND (a.start < b.start OR a.end > b.end)`. -/
def strictlyContains (a b : Event) : Bool :=
  (a.ts ≤ b.ts && endTime a ≥ endTime b) &&
    (a.ts < b.ts || endTime a > endTime b)

/-- The `is_root` loop shared by both builders: no `other` distinct (by value
equality) from `event` contains it. -/
def is_root (events : List Event) (e : Event) : Bool :=
  !(events.any fun other => !(other == e) && rootContains other e)

/-- Root collection of `build_module_hierarchy` (no name-based exclusion). -/
def root_events_excel (events : List Event) : List Event :=
  events.filter (is_root events)

/-- Python `str.isdigit()` restricted to ASCII decimal digits: false on the
empty string, true iff every character is a digit. -/
def pyIsDigit (s : String) : Bool := !s.data.isEmpty && s.data.all Char.isDigit

/-- Root collection of `parse_trace_hierarchy`: digit-named events are never
selected as roots. -/
def root_events_nvtx (events : List Event) : List Event :=
  events.filter fun e => is_root events e && !pyIsDigit e.name

/-- Python's `min(events, key=lambda x: x.get("ts", 0))`: first element of
minimum key, `ValueError` (modelled as `none`) on an empty sequence. -/
def pyMinTs : List Event → Option Event
  | [] => none
  | e :: rest => some (rest.foldl (fun best x => if x.ts < best.ts then x else best) e)

/-- One step of the child-collection loop of `build_hierarchy_recursive`
(generate_hierarchy_excel.py lines 100-122). -/
def childStepExcel (node : Event) (children : List Event) (e : Event) : List Event :=
  if e == node then children
  else if childCandidate node e then
    if children.any (fun oc => weakContains oc e) then children
    else children ++ [e]
  else children

/-- One step of the child-collection loop of `build_hierarchy`
(nvtx_hierarchy_tree.py lines 76-123): after the `is_child_of_other` test, a
digit-named node appends unconditionally, any other node additionally requires
strict inequality on both boundaries and re-checks containment by the
already-collected children. -/
def childStepNvtx (node : Event) (children : List Event) (e : Event) : List Event :=
  if e == node then children
  else if childCandidate node e then
    if children.any (fun oc => weakContains oc e) then children
    else if pyIsDigit node.name then children ++ [e]
    else if e.ts > node.ts && endTime e < endTime node then
      if children.any (fun oc => weakContains oc e) then children
      else children ++ [e]
    else children
  else children

def childScanExcel (events : List Event) (node : Event) : List Event :=
  events.foldl (childStepExcel node) []

def childScanNvtx (events : List Event) (node : Event) : List Event :=
  events.foldl (childStepNvtx node) []

/-- `children` of a node in `build_hierarchy_recursive`, after the final
`children.sort(key=ts)`. -/
def childrenExcel (events : List Event) (node : Event) : List Event :=
  sortByTs (childScanExcel events node)

/-- `children` of a node in `build_hierarchy` (nvtx), after the final sort. -/
def childrenNvtx (events : List Event) (node : Event) : List Event :=
  sortByTs (childScanNvtx events node)

/-- Fuelled model of `build_hierarchy_recursive`: emit the node, then recurse
on each collected child at depth+1.  The Python recursion has no fuel; fuel
independence for sufficiently large fuel is proved below (termination). -/
def buildRecExcel : Nat → List Event → Event → Nat → List Entry
  | 0, _, _, _ => []
  | fuel + 1, events, node, depth =>
    mkEntry node depth ::
      (childrenExcel events node).flatMap fun c => buildRecExcel fuel events c (depth + 1)

/-- Fuelled model of `build_hierarchy` (nvtx). -/
def buildRecNvtx : Nat → List Event → Event → Nat → List Entry
  | 0, _, _, _ => []
  | fuel + 1, events, node, depth =>
    mkEntry node depth ::
      (childrenNvtx events node).flatMap fun c => buildRecNvtx fuel events c (depth + 1)

/-- The root list actually iterated by `build_module_hierarchy`: the computed
roots, or — when that list is empty — the singleton `min(events, key=ts)`,
which raises (`none`) on an empty input. -/
def used_roots_excel (sorted : List Event) : Option (List Event) :=
  if (root_events_excel sorted).isEmpty then (pyMinTs sorted).map (fun m => [m])
  else some (root_events_excel sorted)

/-- The root list actually iterated by `parse_trace_hierarchy`. -/
def used_roots_nvtx (sorted : List Event) : Option (List Event) :=
  if (root_events_nvtx sorted).isEmpty then (pyMinTs sorted).map (fun m => [m])
  else some (root_events_nvtx sorted)

/-- `build_module_hierarchy` (generate_hierarchy_excel.py lines 52-132): sort a
copy of the input, select roots, fall back to the earliest event when no root
was found, then build the depth-annotated output from each root in ascending
start order. -/
def build_module_hierarchy (events : List Event) : Option (List Entry) :=
  (used_roots_excel (sortByTs events)).map fun roots =>
    (sortByTs roots).flatMap fun r =>
      buildRecExcel ((sortByTs events).length + 1) (sortByTs events) r 0

/-- `parse_trace_hierarchy` (nvtx_hierarchy_tree.py lines 7-136).  The input
list is sorted **in place** (`events.sort(...)`, line 9); the second component
of the result is the final state of that list. -/
def parse_trace_hierarchy (events : List Event) : Option (List Entry) × List Event :=
  (((used_roots_nvtx (sortByTs events)).map fun roots =>
      (sortByTs roots).flatMap fun r =>
        buildRecNvtx ((sortByTs events).length + 1) (sortByTs events) r 0),
   sortByTs events)

/-- The acceptance test distinguishing the nvtx child loop from the excel one:
a digit-named node takes any candidate surviving `is_child_of_other`, any other
node additionally demands strict inequality on both boundaries. -/
def acceptNvtx (node : Event) (e : Event) : Bool :=
  pyIsDigit node.name || (e.ts > node.ts && endTime e < endTime node)

/-- Generic form of one step of the child-collection loops, parameterized by
the extra acceptance test applied after `is_child_of_other`. -/
def stepGeneric (node : Event) (accept : Event → Bool)
    (children : List Event) (e : Event) : List Event :=
  if e == node then children
  else if childCandidate node e then
    if children.any (fun oc => weakContains oc e) then children
    else if accept e then children ++ [e]
    else children
  else children

/-- Scan-order-free characterization of the retained children: an accepted
candidate no other accepted candidate strictly contains. -/
def goodChild (events : List Event) (node : Event) (accept : Event → Bool)
    (e : Event) : Bool :=
  childCandidate node e && accept e &&
    !(events.any fun m => childCandidate node m && accept m && strictlyContains m e)

/-- Scan-order-free characterization of the cells of a partition layer: a
`Q`-event no other `Q`-event strictly contains. -/
def goodQ (events : List Event) (Q : Event → Bool) (e : Event) : Bool :=
  Q e && !(events.any fun m => Q m && strictlyContains m e)

/-- Two intervals are laminar when they are identical, strictly nested one way
or the other, or disjoint. -/
def laminarPair (a b : Event) : Prop :=
  a = b ∨ strictlyContains a b = true ∨ strictlyContains b a = true ∨
    endTime a ≤ b.ts ∨ endTime b ≤ a.ts

instance (a b : Event) : Decidable (laminarPair a b) := by
  unfold laminarPair
  infer_instance

/-! ### Basic properties of the containment predicates -/

lemma strict_iff {a b : Event} : strictlyContains a b = true ↔
    a.ts ≤ b.ts ∧ endTime b ≤ endTime a ∧ (a.ts < b.ts ∨ endTime b < endTime a) := by
  simp only [strictlyContains, Bool.and_eq_true, Bool.or_eq_true, decide_eq_true_eq,
    ge_iff_le, gt_iff_lt, and_assoc]

lemma weak_iff {a b : Event} : weakContains a b = true ↔
    a.ts ≤ b.ts ∧ endTime b ≤ endTime a := by
  simp only [weakContains, Bool.and_eq_true, decide_eq_true_eq, ge_iff_le]

lemma root_eq_strict (a b : Event) : rootContains a b = strictlyContains a b := rfl

lemma cand_eq_strict (a b : Event) : childCandidate a b = strictlyContains a b := by
  rw [Bool.eq_iff_iff]
  simp only [childCandidate, strictlyContains, Bool.and_eq_true, Bool.or_eq_true,
    decide_eq_true_eq, ge_iff_le, gt_iff_lt]

lemma strict_irrefl (a : Event) : strictlyContains a a = false := by
  rw [Bool.eq_false_iff]
  intro h
  rw [strict_iff] at h
  omega

lemma strict_trans {a b c : Event} (h1 : strictlyContains a b = true)
    (h2 : strictlyContains b c = true) : strictlyContains a c = true := by
  rw [strict_iff] at h1 h2 ⊢
  omega

lemma strict_asymm (a b : Event) : (strictlyContains a b && strictlyContains b a) = false := by
  rw [Bool.eq_false_iff]
  intro h
  rw [Bool.and_eq_true, strict_iff, strict_iff] at h
  omega

lemma strict_ne {a b : Event} (h : strictlyContains a b = true) : a ≠ b := by
  intro he
  subst he
  rw [strict_iff] at h
  omega

lemma weak_strict {a b : Event} (h : weakContains a b = true) (hne : a.ts ≠ b.ts) :
    strictlyContains a b = true := by
  rw [weak_iff] at h
  rw [strict_iff]
  omega

lemma strict_weak {a b : Event} (h : strictlyContains a b = true) : weakContains a b = true := by
  rw [strict_iff] at h
  rw [weak_iff]
  omega

/-! ### The sort used by both builders -/

lemma sortByTs_perm (l : List Event) : (sortByTs l).Perm l := List.perm_insertionSort _ _

lemma sortByTs_sorted (l : List Event) : List.Sorted tsLe (sortByTs l) :=
  List.sorted_insertionSort _ _

lemma sortByTs_eq_of_sorted {l : List Event} (h : List.Sorted tsLe l) : sortByTs l = l :=
  List.Sorted.insertionSort_eq h

lemma sortByTs_ne_nil {l : List Event} (h : l ≠ []) : sortByTs l ≠ [] := by
  intro h0
  apply h
  have hp := (sortByTs_perm l).length_eq
  rw [h0] at hp
  exact List.eq_nil_of_length_eq_zero hp.symm

/-! ### Python min() -/

lemma pyMinFold_spec (l : List Event) : ∀ b : Event,
    (List.foldl (fun best x => if x.ts < best.ts then x else best) b l = b ∨
     List.foldl (fun best x => if x.ts < best.ts then x else best) b l ∈ l) ∧
    (List.foldl (fun best x => if x.ts < best.ts then x else best) b l).ts ≤ b.ts ∧
    ∀ e ∈ l, (List.foldl (fun best x => if x.ts < best.ts then x else best) b l).ts ≤ e.ts := by
  induction l with
  | nil => exact fun b => ⟨Or.inl rfl, le_refl _, by simp⟩
  | cons x xs ih =>
    intro b
    simp only [List.foldl_cons]
    by_cases hx : x.ts < b.ts
    · simp only [if_pos hx]
      rcases ih x with ⟨hmem, hle, hall⟩
      refine ⟨?_, le_of_lt (lt_of_le_of_lt hle hx), ?_⟩
      · rcases hmem with h | h
        · refine Or.inr ?_
          rw [h]
          exact List.mem_cons_self x xs
        · exact Or.inr (List.mem_cons_of_mem _ h)
      · intro e he
        rcases List.mem_cons.mp he with rfl | he
        · exact hle
        · exact hall e he
    · simp only [if_neg hx]
      rcases ih b with ⟨hmem, hle, hall⟩
      refine ⟨?_, hle, ?_⟩
      · rcases hmem with h | h
        · exact Or.inl h
        · exact Or.inr (List.mem_cons_of_mem _ h)
      · intro e he
        rcases List.mem_cons.mp he with rfl | he
        · exact le_trans hle (le_of_not_lt hx)
        · exact hall e he

lemma pyMinTs_spec {l : List Event} {m : Event} (h : pyMinTs l = some m) :
    m ∈ l ∧ ∀ e ∈ l, m.ts ≤ e.ts := by
  cases l with
  | nil => simp [pyMinTs] at h
  | cons x xs =>
    have hm : List.foldl (fun best x => if x.ts < best.ts then x else best) x xs = m := by
      simpa [pyMinTs] using h
    rcases pyMinFold_spec xs x with ⟨hmem, hle, hall⟩
    rw [hm] at hmem hle hall
    constructor
    · rcases hmem with hh | hh
      · rw [hh]; exact List.mem_cons_self x xs
      · exact List.mem_cons_of_mem _ hh
    · intro e he
      rcases List.mem_cons.mp he with rfl | he
      · exact hle
      · exact hall e he

lemma pyMinTs_isSome {l : List Event} (h : l ≠ []) : (pyMinTs l).isSome = true := by
  cases l with
  | nil => exact absurd rfl h
  | cons x xs => rfl

/-! ### Child scans: shape and membership -/

lemma childStepExcel_shape (node : Event) (acc : List Event) (e : Event) :
    childStepExcel node acc e = acc ∨
      (childStepExcel node acc e = acc ++ [e] ∧ childCandidate node e = true) := by
  unfold childStepExcel
  by_cases h1 : (e == node) = true
  · rw [if_pos h1]; exact Or.inl rfl
  · rw [if_neg h1]
    by_cases h2 : childCandidate node e = true
    · rw [if_pos h2]
      by_cases h3 : (acc.any fun oc => weakContains oc e) = true
      · rw [if_pos h3]; exact Or.inl rfl
      · rw [if_neg h3]; exact Or.inr ⟨rfl, h2⟩
    · rw [if_neg h2]; exact Or.inl rfl

lemma childStepNvtx_shape (node : Event) (acc : List Event) (e : Event) :
    childStepNvtx node acc e = acc ∨
      (childStepNvtx node acc e = acc ++ [e] ∧ childCandidate node e = true) := by
  unfold childStepNvtx
  by_cases h1 : (e == node) = true
  · rw [if_pos h1]; exact Or.inl rfl
  · rw [if_neg h1]
    by_cases h2 : childCandidate node e = true
    · rw [if_pos h2]
      by_cases h3 : (acc.any fun oc => weakContains oc e) = true
      · rw [if_pos h3]; exact Or.inl rfl
      · rw [if_neg h3]
        by_cases h4 : pyIsDigit node.name = true
        · rw [if_pos h4]; exact Or.inr ⟨rfl, h2⟩
        · rw [if_neg h4]
          by_cases h5 : (e.ts > node.ts && endTime e < endTime node) = true
          · rw [if_pos h5, if_neg h3]; exact Or.inr ⟨rfl, h2⟩
          · rw [if_neg h5]; exact Or.inl rfl
    · rw [if_neg h2]; exact Or.inl rfl

lemma foldl_step_sub (node : Event) (step : List Event → Event → List Event)
    (hshape : ∀ acc e, step acc e = acc ∨
      (step acc e = acc ++ [e] ∧ childCandidate node e = true)) :
    ∀ (l acc : List Event), ∀ c ∈ List.foldl step acc l,
      c ∈ acc ∨ (c ∈ l ∧ childCandidate node c = true) := by
  intro l
  induction l with
  | nil => exact fun acc c hc => Or.inl hc
  | cons e rest ih =>
    intro acc c hc
    rw [List.foldl_cons] at hc
    rcases hshape acc e with hs | ⟨hs, hcand⟩
    · rw [hs] at hc
      rcases ih acc c hc with h | h
      · exact Or.inl h
      · exact Or.inr ⟨List.mem_cons_of_mem _ h.1, h.2⟩
    · rw [hs] at hc
      rcases ih _ c hc with h | h
      · rcases List.mem_append.mp h with h4 | h4
        · exact Or.inl h4
        · have hce : c = e := List.mem_singleton.mp h4
          subst hce
          exact Or.inr ⟨List.mem_cons_self _ _, hcand⟩
      · exact Or.inr ⟨List.mem_cons_of_mem _ h.1, h.2⟩

lemma childrenExcel_sub {events : List Event} {node c : Event}
    (hc : c ∈ childrenExcel events node) :
    c ∈ events ∧ strictlyContains node c = true := by
  have hmem : c ∈ childScanExcel events node := (sortByTs_perm _).mem_iff.mp hc
  unfold childScanExcel at hmem
  rcases foldl_step_sub node _ (childStepExcel_shape node) events [] c hmem with h | h
  · simp at h
  · refine ⟨h.1, ?_⟩
    rw [← cand_eq_strict]
    exact h.2

lemma childrenNvtx_sub {events : List Event} {node c : Event}
    (hc : c ∈ childrenNvtx events node) :
    c ∈ events ∧ strictlyContains node c = true := by
  have hmem : c ∈ childScanNvtx events node := (sortByTs_perm _).mem_iff.mp hc
  unfold childScanNvtx at hmem
  rcases foldl_step_sub node _ (childStepNvtx_shape node) events [] c hmem with h | h
  · simp at h
  · refine ⟨h.1, ?_⟩
    rw [← cand_eq_strict]
    exact h.2

/-! ### Filter length arithmetic for the termination measure -/

lemma filter_sublist_of_imp {p q : Event → Bool} :
    ∀ (l : List Event), (∀ x ∈ l, p x = true → q x = true) →
      (l.filter p).Sublist (l.filter q) := by
  intro l
  induction l with
  | nil => intro _; simp
  | cons a l ih =>
    intro h
    by_cases hp : p a = true
    · rw [List.filter_cons_of_pos hp, List.filter_cons_of_pos (h a (List.mem_cons_self a l) hp)]
      exact List.Sublist.cons₂ a (ih fun x hx => h x (List.mem_cons_of_mem _ hx))
    · rw [List.filter_cons_of_neg (by simpa using hp)]
      by_cases hq : q a = true
      · rw [List.filter_cons_of_pos hq]
        exact List.Sublist.cons a (ih fun x hx => h x (List.mem_cons_of_mem _ hx))
      · rw [List.filter_cons_of_neg (by simpa using hq)]
        exact ih fun x hx => h x (List.mem_cons_of_mem _ hx)

lemma filter_length_lt {p q : Event → Bool} {l : List Event}
    (hpq : ∀ x ∈ l, p x = true → q x = true) {x0 : Event} (hx0 : x0 ∈ l)
    (hq : q x0 = true) (hp : p x0 = false) :
    (l.filter p).length < (l.filter q).length := by
  have hsub := filter_sublist_of_imp l hpq
  rcases Nat.lt_or_ge (l.filter p).length (l.filter q).length with h | h
  · exact h
  · exfalso
    have heq : l.filter p = l.filter q := hsub.eq_of_length (Nat.le_antisymm hsub.length_le h)
    have hmem : x0 ∈ l.filter p := by
      rw [heq]
      exact List.mem_filter.mpr ⟨hx0, hq⟩
    have hpx := (List.mem_filter.mp hmem).2
    rw [hp] at hpx
    exact Bool.false_ne_true hpx

lemma measure_lt {events : List Event} {node c : Event} (hc : c ∈ events)
    (hs : strictlyContains node c = true) :
    (events.filter fun e => strictlyContains c e).length <
      (events.filter fun e => strictlyContains node e).length :=
  filter_length_lt (fun _ _ hpx => strict_trans hs hpx) hc hs (strict_irrefl c)

/-! ### Fuel independence: the recursion terminates -/

lemma flatMap_congr_mem {α β : Type} {l : List α} {f g : α → List β}
    (h : ∀ a ∈ l, f a = g a) : l.flatMap f = l.flatMap g := by
  induction l with
  | nil => rfl
  | cons a l ih =>
    rw [List.flatMap_cons, List.flatMap_cons, h a (List.mem_cons_self a l),
      ih fun x hx => h x (List.mem_cons_of_mem _ hx)]

lemma buildRecExcel_fuel : ∀ (f1 : Nat) (events : List Event) (node : Event) (depth : Nat)
    (f2 : Nat), (events.filter fun e => strictlyContains node e).length < f1 →
    (events.filter fun e => strictlyContains node e).length < f2 →
    buildRecExcel f1 events node depth = buildRecExcel f2 events node depth := by
  intro f1
  induction f1 with
  | zero => exact fun events node depth f2 h1 _ => absurd h1 (Nat.not_lt_zero _)
  | succ k ih =>
    intro events node depth f2 h1 h2
    cases f2 with
    | zero => exact absurd h2 (Nat.not_lt_zero _)
    | succ k2 =>
      simp only [buildRecExcel]
      congr 1
      apply flatMap_congr_mem
      intro c hc
      rcases childrenExcel_sub hc with ⟨hcm, hcs⟩
      have hlt := measure_lt hcm hcs
      exact ih events c (depth + 1) k2 (by omega) (by omega)

lemma buildRecNvtx_fuel : ∀ (f1 : Nat) (events : List Event) (node : Event) (depth : Nat)
    (f2 : Nat), (events.filter fun e => strictlyContains node e).length < f1 →
    (events.filter fun e => strictlyContains node e).length < f2 →
    buildRecNvtx f1 events node depth = buildRecNvtx f2 events node depth := by
  intro f1
  induction f1 with
  | zero => exact fun events node depth f2 h1 _ => absurd h1 (Nat.not_lt_zero _)
  | succ k ih =>
    intro events node depth f2 h1 h2
    cases f2 with
    | zero => exact absurd h2 (Nat.not_lt_zero _)
    | succ k2 =>
      simp only [buildRecNvtx]
      congr 1
      apply flatMap_congr_mem
      intro c hc
      rcases childrenNvtx_sub hc with ⟨hcm, hcs⟩
      have hlt := measure_lt hcm hcs
      exact ih events c (depth + 1) k2 (by omega) (by omega)

/-! ### Non-empty inputs never raise -/

lemma used_roots_excel_isSome {l : List Event} (h : l ≠ []) :
    (used_roots_excel l).isSome = true := by
  unfold used_roots_excel
  by_cases hr : (root_events_excel l).isEmpty = true
  · rw [if_pos hr]
    cases hm : pyMinTs l with
    | none =>
      cases l with
      | nil => exact absurd rfl h
      | cons x xs => simp [pyMinTs] at hm
    | some m => rfl
  · rw [if_neg hr]; rfl

lemma used_roots_nvtx_isSome {l : List Event} (h : l ≠ []) :
    (used_roots_nvtx l).isSome = true := by
  unfold used_roots_nvtx
  by_cases hr : (root_events_nvtx l).isEmpty = true
  · rw [if_pos hr]
    cases hm : pyMinTs l with
    | none =>
      cases l with
      | nil => exact absurd rfl h
      | cons x xs => simp [pyMinTs] at hm
    | some m => rfl
  · rw [if_neg hr]; rfl

lemma build_module_hierarchy_isSome {events : List Event} (h : events ≠ []) :
    (build_module_hierarchy events).isSome = true := by
  unfold build_module_hierarchy
  cases hu : used_roots_excel (sortByTs events) with
  | none =>
    have hs := used_roots_excel_isSome (sortByTs_ne_nil h)
    rw [hu] at hs
    simp at hs
  | some roots => rfl

lemma parse_trace_hierarchy_isSome {events : List Event} (h : events ≠ []) :
    ((parse_trace_hierarchy events).1).isSome = true := by
  unfold parse_trace_hierarchy
  cases hu : used_roots_nvtx (sortByTs events) with
  | none =>
    have hs := used_roots_nvtx_isSome (sortByTs_ne_nil h)
    rw [hu] at hs
    simp at hs
  | some roots => simp [hu]

lemma used_roots_fallback_nvtx {events : List Event} (hne : events ≠ [])
    (hroots : root_events_nvtx (sortByTs events) = []) :
    ∃ m, used_roots_nvtx (sortByTs events) = some [m] ∧ m ∈ events ∧
      ∀ e ∈ events, m.ts ≤ e.ts := by
  cases hm : pyMinTs (sortByTs events) with
  | none =>
    exfalso
    have hs := pyMinTs_isSome (sortByTs_ne_nil hne)
    rw [hm] at hs
    simp at hs
  | some m =>
    refine ⟨m, ?_, ?_, ?_⟩
    · simp [used_roots_nvtx, hroots, hm]
    · exact (sortByTs_perm events).mem_iff.mp (pyMinTs_spec hm).1
    · intro e he
      exact (pyMinTs_spec hm).2 e ((sortByTs_perm events).mem_iff.mpr he)

lemma used_roots_fallback_excel {events : List Event} (hne : events ≠ [])
    (hroots : root_events_excel (sortByTs events) = []) :
    ∃ m, used_roots_excel (sortByTs events) = some [m] ∧ m ∈ events ∧
      ∀ e ∈ events, m.ts ≤ e.ts := by
  cases hm : pyMinTs (sortByTs events) with
  | none =>
    exfalso
    have hs := pyMinTs_isSome (sortByTs_ne_nil hne)
    rw [hm] at hs
    simp at hs
  | some m =>
    refine ⟨m, ?_, ?_, ?_⟩
    · simp [used_roots_excel, hroots, hm]
    · exact (sortByTs_perm events).mem_iff.mp (pyMinTs_spec hm).1
    · intro e he
      exact (pyMinTs_spec hm).2 e ((sortByTs_perm events).mem_iff.mpr he)

/-- C5: the containment test used by both builders — in the root-selection
loops and as the child-candidacy test — is exactly the predicate
`a.start <= b.start AND a.end >= b.end AND (a.start < b.start OR a.end > b.end)`
with `end = start + duration`; it is irreflexive, asymmetric (hence
antisymmetric on distinct spans), and two intervals of identical span never
contain each other in either direction. -/
theorem containment_predicate_spec :
    ∀ a b : Event,
      rootContains a b = strictlyContains a b ∧
      childCandidate a b = strictlyContains a b ∧
      strictlyContains a a = false ∧
      (strictlyContains a b && strictlyContains b a) = false ∧
      ((a.ts == b.ts && endTime a == endTime b) && strictlyContains a b) = false := by
  intro a b
  refine ⟨root_eq_strict a b, cand_eq_strict a b, strict_irrefl a, strict_asymm a b, ?_⟩
  rw [Bool.eq_false_iff]
  intro hcontra
  rw [Bool.and_eq_true, Bool.and_eq_true] at hcontra
  rcases hcontra with ⟨⟨h1, h2⟩, h3⟩
  rw [beq_iff_eq] at h1 h2
  rw [strict_iff] at h3
  omega

/-- C9: two intervals with distinct identities but equal spans are both
selected as roots by both builders, appear at depth 0, and in their original
encounter order (shown for both encounter orders). -/
theorem equal_span_distinct_events_both_roots :
    build_module_hierarchy [⟨"X", 0, 50⟩, ⟨"Y", 0, 50⟩]
      = some [⟨"X", 0, 0, 50, 50⟩, ⟨"Y", 0, 0, 50, 50⟩] ∧
    (parse_trace_hierarchy [⟨"X", 0, 50⟩, ⟨"Y", 0, 50⟩]).1
      = some [⟨"X", 0, 0, 50, 50⟩, ⟨"Y", 0, 0, 50, 50⟩] ∧
    build_module_hierarchy [⟨"Y", 0, 50⟩, ⟨"X", 0, 50⟩]
      = some [⟨"Y", 0, 0, 50, 50⟩, ⟨"X", 0, 0, 50, 50⟩] ∧
    (parse_trace_hierarchy [⟨"Y", 0, 50⟩, ⟨"X", 0, 50⟩]).1
      = some [⟨"Y", 0, 0, 50, 50⟩, ⟨"X", 0, 0, 50, 50⟩] := by
  refine ⟨by decide, by decide, by decide, by decide⟩

/-- C4 counterexample: on the empty input both builders hit
`min(events, key=...)` on an empty sequence, i.e. raise `ValueError`
(modelled `none`) — they do not return an empty output sequence. -/
theorem empty_input_returns_error :
    build_module_hierarchy [] = none ∧ (parse_trace_hierarchy []).1 = none :=
  ⟨rfl, rfl⟩

/-- C4 amended: the empty input raises (the degenerate-root fallback evaluates
`min` of an empty sequence); every non-empty input returns a result without
raising. -/
theorem empty_errors_nonempty_succeeds :
    (build_module_hierarchy [] = none ∧ (parse_trace_hierarchy []).1 = none) ∧
    ∀ events : List Event, events ≠ [] →
      (build_module_hierarchy events).isSome = true ∧
      ((parse_trace_hierarchy events).1).isSome = true :=
  ⟨⟨rfl, rfl⟩, fun _ h => ⟨build_module_hierarchy_isSome h, parse_trace_hierarchy_isSome h⟩⟩

theorem empty_errors_nonempty_succeeds_witness :
    (build_module_hierarchy [⟨"A", 0, 1⟩]).isSome = true ∧
    ((parse_trace_hierarchy [⟨"A", 0, 1⟩]).1).isSome = true :=
  empty_errors_nonempty_succeeds.2 [⟨"A", 0, 1⟩] (by decide)

/-- C7 counterexample: `parse_trace_hierarchy` sorts its input list in place,
so the caller's collection is reordered — here `[b, a]` becomes `[a, b]`. -/
theorem parse_mutates_input_order :
    (parse_trace_hierarchy [⟨"b", 5, 3⟩, ⟨"a", 0, 5⟩]).2 ≠ [⟨"b", 5, 3⟩, ⟨"a", 0, 5⟩] := by
  decide

/-- C7 amended: neither builder mutates any interval's `name`/`start`/`duration`
(`build_module_hierarchy` sorts a copy and is a pure function of its input by
construction), but `parse_trace_hierarchy` sorts the input list in place: the
final list is a permutation of the input ordered by ascending start, and it
equals the input only when the input was already sorted. -/
theorem parse_sorts_input_in_place :
    ∀ events : List Event,
      ((parse_trace_hierarchy events).2).Perm events ∧
      List.Sorted tsLe ((parse_trace_hierarchy events).2) ∧
      (List.Sorted tsLe events → (parse_trace_hierarchy events).2 = events) :=
  fun events =>
    ⟨sortByTs_perm events, sortByTs_sorted events, fun h => sortByTs_eq_of_sorted h⟩

theorem parse_sorts_input_in_place_witness :
    ((parse_trace_hierarchy [⟨"a", 0, 5⟩, ⟨"b", 5, 3⟩]).2).Perm [⟨"a", 0, 5⟩, ⟨"b", 5, 3⟩] ∧
    (parse_trace_hierarchy [⟨"a", 0, 5⟩, ⟨"b", 5, 3⟩]).2 = [⟨"a", 0, 5⟩, ⟨"b", 5, 3⟩] :=
  ⟨(parse_sorts_input_in_place _).1,
   (parse_sorts_input_in_place [⟨"a", 0, 5⟩, ⟨"b", 5, 3⟩]).2.2 (by decide)⟩

/-- C6: on a non-empty input neither builder raises, and whenever root
selection (with the nvtx numeric-name exclusion, or without it) comes back
empty, the builder proceeds with the single interval of globally minimum start
as its sole root. -/
theorem nonempty_never_raises_min_fallback_root (events : List Event)
    (hne : events ≠ []) :
    (build_module_hierarchy events).isSome = true ∧
    ((parse_trace_hierarchy events).1).isSome = true ∧
    (root_events_nvtx (sortByTs events) = [] →
      ∃ m, used_roots_nvtx (sortByTs events) = some [m] ∧ m ∈ events ∧
        ∀ e ∈ events, m.ts ≤ e.ts) ∧
    (root_events_excel (sortByTs events) = [] →
      ∃ m, used_roots_excel (sortByTs events) = some [m] ∧ m ∈ events ∧
        ∀ e ∈ events, m.ts ≤ e.ts) :=
  ⟨build_module_hierarchy_isSome hne, parse_trace_hierarchy_isSome hne,
   fun hroots => used_roots_fallback_nvtx hne hroots,
   fun hroots => used_roots_fallback_excel hne hroots⟩

theorem nonempty_never_raises_min_fallback_root_witness :
    (build_module_hierarchy [⟨"3", 0, 10⟩]).isSome = true ∧
    ((parse_trace_hierarchy [⟨"3", 0, 10⟩]).1).isSome = true ∧
    used_roots_nvtx (sortByTs [⟨"3", 0, 10⟩]) = some [⟨"3", 0, 10⟩] := by
  obtain ⟨h1, h2, h3, _⟩ :=
    nonempty_never_raises_min_fallback_root [⟨"3", 0, 10⟩] (by decide)
  rcases h3 (by decide) with ⟨m, hm, hmem, _⟩
  have hm3 : m = ⟨"3", 0, 10⟩ := List.mem_singleton.mp hmem
  rw [hm3] at hm
  exact ⟨h1, h2, hm⟩

/-- C8: the recursive build terminates — every collected child is strictly
contained in its node, the number of strictly contained events is a strictly
decreasing measure, and the fuelled recursion is independent of the fuel as
soon as the fuel exceeds that measure (for both builders). -/
theorem hierarchy_recursion_terminates (events : List Event) (node : Event)
    (depth : Nat) (f1 f2 : Nat)
    (h1 : (events.filter fun e => strictlyContains node e).length < f1)
    (h2 : (events.filter fun e => strictlyContains node e).length < f2) :
    buildRecExcel f1 events node depth = buildRecExcel f2 events node depth ∧
    buildRecNvtx f1 events node depth = buildRecNvtx f2 events node depth ∧
    (∀ c ∈ childrenExcel events node, strictlyContains node c = true) ∧
    (∀ c ∈ childrenNvtx events node, strictlyContains node c = true) :=
  ⟨buildRecExcel_fuel f1 events node depth f2 h1 h2,
   buildRecNvtx_fuel f1 events node depth f2 h1 h2,
   fun _ hc => (childrenExcel_sub hc).2,
   fun _ hc => (childrenNvtx_sub hc).2⟩

theorem hierarchy_recursion_terminates_witness :
    buildRecExcel 3 [⟨"A", 0, 10⟩, ⟨"B", 2, 3⟩] ⟨"A", 0, 10⟩ 0
      = buildRecExcel 7 [⟨"A", 0, 10⟩, ⟨"B", 2, 3⟩] ⟨"A", 0, 10⟩ 0 ∧
    buildRecNvtx 3 [⟨"A", 0, 10⟩, ⟨"B", 2, 3⟩] ⟨"A", 0, 10⟩ 0
      = buildRecNvtx 7 [⟨"A", 0, 10⟩, ⟨"B", 2, 3⟩] ⟨"A", 0, 10⟩ 0 ∧
    strictlyContains ⟨"A", 0, 10⟩ ⟨"B", 2, 3⟩ = true := by
  obtain ⟨he, hn, hce, _⟩ :=
    hierarchy_recursion_terminates [⟨"A", 0, 10⟩, ⟨"B", 2, 3⟩] ⟨"A", 0, 10⟩ 0 3 7
      (by decide) (by decide)
  exact ⟨he, hn, hce ⟨"B", 2, 3⟩ (by decide)⟩

/-! ### The nvtx non-digit branch demands strict boundaries -/

lemma childScanNvtx_nondigit_bound {node : Event} (h : pyIsDigit node.name = false) :
    ∀ (l acc : List Event), (∀ x ∈ acc, node.ts < x.ts ∧ endTime x < endTime node) →
      ∀ e ∈ List.foldl (childStepNvtx node) acc l,
        node.ts < e.ts ∧ endTime e < endTime node := by
  intro l
  induction l with
  | nil => exact fun acc hacc e he => hacc e he
  | cons x rest ih =>
    intro acc hacc e he
    rw [List.foldl_cons] at he
    refine ih _ ?_ e he
    intro y hy
    unfold childStepNvtx at hy
    by_cases h1 : (x == node) = true
    · rw [if_pos h1] at hy; exact hacc y hy
    · rw [if_neg h1] at hy
      by_cases h2 : childCandidate node x = true
      · rw [if_pos h2] at hy
        by_cases h3 : (acc.any fun oc => weakContains oc x) = true
        · rw [if_pos h3] at hy; exact hacc y hy
        · rw [if_neg h3] at hy
          rw [if_neg (by rw [h]; exact Bool.false_ne_true)] at hy
          by_cases h4 : (x.ts > node.ts && endTime x < endTime node) = true
          · rw [if_pos h4, if_neg h3] at hy
            rcases List.mem_append.mp hy with h5 | h5
            · exact hacc y h5
            · have hyx : y = x := List.mem_singleton.mp h5
              subst hyx
              rw [Bool.and_eq_true, decide_eq_true_eq, decide_eq_true_eq] at h4
              exact ⟨h4.1, h4.2⟩
          · rw [if_neg h4] at hy; exact hacc y hy
      · rw [if_neg h2] at hy; exact hacc y hy

/-- C10: for a node whose name is not all digits, every interval retained as a
direct child by the nvtx builder starts strictly after the node starts and
ends strictly before the node ends — a candidate sharing either boundary with
the node is never selected. -/
theorem nondigit_children_exclude_boundary_sharing (events : List Event)
    (node : Event) (h : pyIsDigit node.name = false) :
    ∀ e ∈ childrenNvtx events node, node.ts < e.ts ∧ endTime e < endTime node := by
  intro e he
  have hm : e ∈ childScanNvtx events node := (sortByTs_perm _).mem_iff.mp he
  unfold childScanNvtx at hm
  exact childScanNvtx_nondigit_bound h events [] (by simp) e hm

theorem nondigit_children_exclude_boundary_sharing_witness :
    (⟨"N", 0, 10⟩ : Event).ts < (⟨"e", 2, 3⟩ : Event).ts ∧
    endTime ⟨"e", 2, 3⟩ < endTime ⟨"N", 0, 10⟩ :=
  nondigit_children_exclude_boundary_sharing [⟨"N", 0, 10⟩, ⟨"e", 2, 3⟩]
    ⟨"N", 0, 10⟩ (by decide) ⟨"e", 2, 3⟩ (by decide)

/-! ### The digit branch does not skip the minimality filter -/

lemma childStepNvtx_digit {node : Event} (h : pyIsDigit node.name = true)
    (acc : List Event) (e : Event) :
    childStepNvtx node acc e = childStepExcel node acc e := by
  unfold childStepNvtx childStepExcel
  by_cases h1 : (e == node) = true
  · rw [if_pos h1, if_pos h1]
  · rw [if_neg h1, if_neg h1]
    by_cases h2 : childCandidate node e = true
    · rw [if_pos h2, if_pos h2]
      by_cases h3 : (acc.any fun oc => weakContains oc e) = true
      · rw [if_pos h3, if_pos h3]
      · rw [if_neg h3, if_neg h3, if_pos h]
    · rw [if_neg h2, if_neg h2]

/-- C3 counterexample: under the digit-named node `"3"` ([0,30]), the candidate
`Q` ([6,9]) is strictly contained in the node but does **not** become a direct
child, because the earlier-collected candidate `P` ([5,15]) contains it — the
`is_child_of_other` filter runs before the digit branch. `Q` ends up at depth 2
under `P`, not at depth 1. -/
theorem digit_node_still_filters_nested_candidates :
    childrenNvtx [⟨"3", 0, 30⟩, ⟨"P", 5, 10⟩, ⟨"Q", 6, 3⟩] ⟨"3", 0, 30⟩
      = [⟨"P", 5, 10⟩] ∧
    pyIsDigit "3" = true ∧
    childCandidate ⟨"3", 0, 30⟩ ⟨"Q", 6, 3⟩ = true ∧
    (parse_trace_hierarchy [⟨"3", 0, 30⟩, ⟨"P", 5, 10⟩, ⟨"Q", 6, 3⟩]).1
      = some [⟨"3", 0, 0, 30, 30⟩, ⟨"P", 1, 5, 10, 15⟩, ⟨"Q", 2, 6, 3, 9⟩] := by
  refine ⟨by decide, by decide, by decide, by decide⟩

/-- C3 amended: for a digit-named node the nvtx child collection is exactly
the excel one — the candidate set is exempted from the strict-boundary
requirement of the non-digit branch, but the one-pass `is_child_of_other`
minimality filter still applies. -/
theorem digit_node_children_match_excel (events : List Event) (node : Event)
    (h : pyIsDigit node.name = true) :
    childrenNvtx events node = childrenExcel events node := by
  unfold childrenNvtx childrenExcel childScanNvtx childScanExcel
  have key : ∀ (l acc : List Event),
      List.foldl (childStepNvtx node) acc l = List.foldl (childStepExcel node) acc l := by
    intro l
    induction l with
    | nil => exact fun _ => rfl
    | cons e rest ih =>
      intro acc
      rw [List.foldl_cons, List.foldl_cons, childStepNvtx_digit h, ih]
  rw [key]

theorem digit_node_children_match_excel_witness :
    childrenNvtx [⟨"3", 0, 30⟩, ⟨"P", 5, 10⟩, ⟨"Q", 6, 3⟩] ⟨"3", 0, 30⟩
      = childrenExcel [⟨"3", 0, 30⟩, ⟨"P", 5, 10⟩, ⟨"Q", 6, 3⟩] ⟨"3", 0, 30⟩ :=
  digit_node_children_match_excel [⟨"3", 0, 30⟩, ⟨"P", 5, 10⟩, ⟨"Q", 6, 3⟩]
    ⟨"3", 0, 30⟩ (by decide)

/-- C2 counterexample: for node `N` ([0,100]) with candidates `e` ([5,15]) and
`f` ([5,25]) scanned in that order, both builders retain `e` even though the
other candidate `f` strictly contains it — the filter only checks candidates
already added, so membership depends on scan order: with `f` scanned first,
only `f` is retained. -/
theorem child_filter_order_dependent :
    childrenExcel [⟨"N", 0, 100⟩, ⟨"e", 5, 10⟩, ⟨"f", 5, 20⟩] ⟨"N", 0, 100⟩
      = [⟨"e", 5, 10⟩, ⟨"f", 5, 20⟩] ∧
    childrenNvtx [⟨"N", 0, 100⟩, ⟨"e", 5, 10⟩, ⟨"f", 5, 20⟩] ⟨"N", 0, 100⟩
      = [⟨"e", 5, 10⟩, ⟨"f", 5, 20⟩] ∧
    strictlyContains ⟨"f", 5, 20⟩ ⟨"e", 5, 10⟩ = true ∧
    childrenExcel [⟨"N", 0, 100⟩, ⟨"f", 5, 20⟩, ⟨"e", 5, 10⟩] ⟨"N", 0, 100⟩
      = [⟨"f", 5, 20⟩] := by
  refine ⟨by decide, by decide, by decide, by decide⟩

/-- C1 counterexample: the output does not have one entry per input interval.
With `N` ([0,100]) containing the equal-span pair `e`,`f` (both [5,15]), `f` is
dropped by both builders: 3 inputs, 2 output entries.  With `e` ([5,15]) and
`f` ([5,25]) nested under `N` and scanned shorter-first, `e` is emitted twice
by `build_module_hierarchy` (once under `N`, once under `f`).  Moreover
`parse_trace_hierarchy` drops events even on laminar inputs with distinct
starts: with the disjoint digit-named pair `"3"` ([0,10]), `"4"` ([20,25])
both roots are digit-excluded and the fallback root `"3"` does not contain
`"4"` (2 inputs, 1 entry); and with `c` ([5,10]) sharing the end of its
parent `N` ([0,10]) the non-digit branch rejects `c` (2 inputs, 1 entry). -/
theorem output_not_one_entry_per_input :
    (build_module_hierarchy [⟨"N", 0, 100⟩, ⟨"e", 5, 10⟩, ⟨"f", 5, 10⟩]).map
        List.length = some 2 ∧
    ((parse_trace_hierarchy [⟨"N", 0, 100⟩, ⟨"e", 5, 10⟩, ⟨"f", 5, 10⟩]).1).map
        List.length = some 2 ∧
    ([(⟨"N", 0, 100⟩ : Event), ⟨"e", 5, 10⟩, ⟨"f", 5, 10⟩].length = 3) ∧
    (build_module_hierarchy [⟨"N", 0, 100⟩, ⟨"e", 5, 10⟩, ⟨"f", 5, 20⟩]).map
        (fun out => out.countP fun en => keyOf en == ⟨"e", 5, 10⟩) = some 2 ∧
    ((parse_trace_hierarchy [⟨"3", 0, 10⟩, ⟨"4", 20, 5⟩]).1).map
        List.length = some 1 ∧
    (∀ a ∈ [(⟨"3", 0, 10⟩ : Event), ⟨"4", 20, 5⟩],
      ∀ b ∈ [(⟨"3", 0, 10⟩ : Event), ⟨"4", 20, 5⟩], laminarPair a b) ∧
    ((parse_trace_hierarchy [⟨"N", 0, 10⟩, ⟨"c", 5, 5⟩]).1).map
        List.length = some 1 ∧
    (∀ a ∈ [(⟨"N", 0, 10⟩ : Event), ⟨"c", 5, 5⟩],
      ∀ b ∈ [(⟨"N", 0, 10⟩ : Event), ⟨"c", 5, 5⟩], laminarPair a b) := by
  refine ⟨by decide, by decide, by decide, by decide, by decide, by decide,
    by decide, by decide⟩

/-! ### The child loops as the generic scan -/

lemma childStepExcel_eq_generic (node : Event) :
    childStepExcel node = stepGeneric node (fun _ => true) := by
  funext acc e
  unfold childStepExcel stepGeneric
  by_cases h1 : (e == node) = true
  · rw [if_pos h1, if_pos h1]
  · rw [if_neg h1, if_neg h1]
    by_cases h2 : childCandidate node e = true
    · rw [if_pos h2, if_pos h2]
      by_cases h3 : (acc.any fun oc => weakContains oc e) = true
      · rw [if_pos h3, if_pos h3]
      · rw [if_neg h3, if_neg h3, if_pos rfl]
    · rw [if_neg h2, if_neg h2]

lemma childStepNvtx_eq_generic (node : Event) :
    childStepNvtx node = stepGeneric node (acceptNvtx node) := by
  funext acc e
  unfold childStepNvtx stepGeneric acceptNvtx
  by_cases h1 : (e == node) = true
  · simp [h1]
  · have h1f := Bool.eq_false_iff.mpr h1
    by_cases h2 : childCandidate node e = true
    · by_cases h3 : (acc.any fun oc => weakContains oc e) = true
      · simp [h1f, h2, h3]
      · have h3f := Bool.eq_false_iff.mpr h3
        by_cases h4 : pyIsDigit node.name = true
        · simp [h1f, h2, h3f, h4]
        · have h4f := Bool.eq_false_iff.mpr h4
          by_cases h5 : (e.ts > node.ts && endTime e < endTime node) = true
          · simp [h1f, h2, h3f, h4f, h5]
          · have h5f := Bool.eq_false_iff.mpr h5
            simp [h1f, h2, h3f, h4f, h5f]
    · have h2f := Bool.eq_false_iff.mpr h2
      simp [h1f, h2f]

lemma goodChild_eq_goodQ (S : List Event) (node : Event) (accept : Event → Bool) :
    goodChild S node accept = goodQ S (fun m => childCandidate node m && accept m) := by
  funext e
  rfl

/-! ### Maximal elements of the strict-containment order -/

lemma exists_max_strict : ∀ (T : List Event), T ≠ [] →
    ∃ m ∈ T, ∀ y ∈ T, strictlyContains y m = false := by
  intro T
  induction T with
  | nil => exact fun h => absurd rfl h
  | cons a T ih =>
    intro _
    cases T with
    | nil =>
      refine ⟨a, List.mem_cons_self a [], ?_⟩
      intro y hy
      have hya : y = a := List.mem_singleton.mp hy
      subst hya
      exact strict_irrefl y
    | cons b T2 =>
      rcases ih (by simp) with ⟨m, hmT, hmax⟩
      by_cases ham : strictlyContains a m = true
      · refine ⟨a, List.mem_cons_self _ _, ?_⟩
        intro y hy
        rcases List.mem_cons.mp hy with rfl | hy
        · exact strict_irrefl y
        · rw [Bool.eq_false_iff]
          intro hya
          have hym : strictlyContains y m = true := strict_trans hya ham
          have hf := hmax y hy
          rw [hym] at hf
          exact (by decide : true ≠ false) hf
      · refine ⟨m, List.mem_cons_of_mem _ hmT, ?_⟩
        intro y hy
        rcases List.mem_cons.mp hy with rfl | hy
        · exact Bool.eq_false_iff.mpr ham
        · exact hmax y hy

/-! ### The order-free characterization predicates -/

lemma goodQ_true_iff {S : List Event} {Q : Event → Bool} {e : Event} :
    goodQ S Q e = true ↔
      Q e = true ∧ ∀ m ∈ S, ¬(Q m = true ∧ strictlyContains m e = true) := by
  unfold goodQ
  rw [Bool.and_eq_true]
  constructor
  · rintro ⟨h1, h3⟩
    refine ⟨h1, ?_⟩
    rintro m hm ⟨hQm, hsm⟩
    rw [Bool.not_eq_true'] at h3
    have hany : (S.any fun m => Q m && strictlyContains m e) = true :=
      List.any_eq_true.mpr ⟨m, hm, by rw [Bool.and_eq_true]; exact ⟨hQm, hsm⟩⟩
    rw [h3] at hany
    exact Bool.false_ne_true hany
  · rintro ⟨h1, h3⟩
    refine ⟨h1, ?_⟩
    rw [Bool.not_eq_true', Bool.eq_false_iff]
    intro hany
    obtain ⟨m, hm, hp⟩ := List.any_eq_true.mp hany
    rw [Bool.and_eq_true] at hp
    exact h3 m hm ⟨hp.1, hp.2⟩

lemma exists_maximal_container {S : List Event} {Q : Event → Bool} {x : Event}
    (h : ∃ m ∈ S, Q m = true ∧ strictlyContains m x = true) :
    ∃ mx ∈ S, (Q mx = true ∧ strictlyContains mx x = true) ∧ goodQ S Q mx = true := by
  have hT : S.filter (fun m => Q m && strictlyContains m x) ≠ [] := by
    obtain ⟨m, hm, hQ, hs⟩ := h
    exact List.ne_nil_of_mem
      (List.mem_filter.mpr ⟨hm, by rw [Bool.and_eq_true]; exact ⟨hQ, hs⟩⟩)
  obtain ⟨mx, hmxT, hmax⟩ := exists_max_strict _ hT
  have hmx := List.mem_filter.mp hmxT
  have hmxP : Q mx = true ∧ strictlyContains mx x = true := by
    have h2 := hmx.2
    rw [Bool.and_eq_true] at h2
    exact h2
  refine ⟨mx, hmx.1, hmxP, ?_⟩
  rw [goodQ_true_iff]
  refine ⟨hmxP.1, ?_⟩
  rintro m hm ⟨hQm, hsm⟩
  have hsmx : strictlyContains m x = true := strict_trans hsm hmxP.2
  have hmT : m ∈ S.filter (fun m => Q m && strictlyContains m x) :=
    List.mem_filter.mpr ⟨hm, by rw [Bool.and_eq_true]; exact ⟨hQm, hsmx⟩⟩
  have hf := hmax m hmT
  rw [hsm] at hf
  exact (by decide : true ≠ false) hf

lemma ts_ne_of_mem {S : List Event} (Hts : S.Pairwise fun a b => a.ts ≠ b.ts)
    {a b : Event} (ha : a ∈ S) (hb : b ∈ S) (hne : a ≠ b) : a.ts ≠ b.ts :=
  List.Pairwise.forall (fun _ _ h => Ne.symm h) Hts ha hb hne

/-- Under a start-sorted scan with pairwise-distinct starts, the one-pass
`is_child_of_other` filter computes exactly the order-free minimality filter:
processing a prefix of the sorted list leaves the accumulator equal to the
filtered prefix. -/
lemma scan_invariant (S : List Event) (node : Event) (accept : Event → Bool)
    (Hsort : List.Sorted tsLe S) (Hts : S.Pairwise fun a b => a.ts ≠ b.ts) :
    ∀ (rest pre : List Event), S = pre ++ rest →
      List.foldl (stepGeneric node accept) (pre.filter (goodChild S node accept)) rest
        = S.filter (goodChild S node accept) := by
  intro rest
  induction rest with
  | nil =>
    intro pre hS
    rw [List.foldl_nil, hS, List.append_nil]
  | cons e rest ih =>
    intro pre hS
    have heS : e ∈ S := by
      rw [hS]
      exact List.mem_append_right _ (List.mem_cons_self _ _)
    have hePre : ∀ a ∈ pre, a.ts ≠ e.ts := by
      intro a ha
      have hp : List.Pairwise (fun a b => a.ts ≠ b.ts) (pre ++ e :: rest) := by
        rw [← hS]; exact Hts
      exact (List.pairwise_append.mp hp).2.2 a ha e (List.mem_cons_self _ _)
    have hRestGe : ∀ b ∈ rest, e.ts ≤ b.ts := by
      intro b hb
      have hp : List.Pairwise tsLe (pre ++ e :: rest) := by
        rw [← hS]; exact Hsort
      have h2 := (List.pairwise_append.mp hp).2.1
      exact (List.pairwise_cons.mp h2).1 b hb
    have hPreMem : ∀ m ∈ S, m.ts < e.ts → m ∈ pre := by
      intro m hm hlt
      rw [hS] at hm
      rcases List.mem_append.mp hm with h | h
      · exact h
      · rcases List.mem_cons.mp h with rfl | h
        · exact absurd hlt (lt_irrefl _)
        · exact absurd hlt (not_lt.mpr (hRestGe m h))
    have hfe : goodChild S node accept e = false →
        (pre ++ [e]).filter (goodChild S node accept)
          = pre.filter (goodChild S node accept) := by
      intro hg
      rw [List.filter_append]
      have h0 : List.filter (goodChild S node accept) [e] = [] := by simp [hg]
      rw [h0, List.append_nil]
    have hfe2 : goodChild S node accept e = true →
        (pre ++ [e]).filter (goodChild S node accept)
          = pre.filter (goodChild S node accept) ++ [e] := by
      intro hg
      rw [List.filter_append]
      have h0 : List.filter (goodChild S node accept) [e] = [e] := by simp [hg]
      rw [h0]
    have hstep : stepGeneric node accept (pre.filter (goodChild S node accept)) e
        = (pre ++ [e]).filter (goodChild S node accept) := by
      unfold stepGeneric
      by_cases h1 : (e == node) = true
      · rw [if_pos h1]
        have he : e = node := by rwa [beq_iff_eq] at h1
        refine (hfe ?_).symm
        rw [goodChild_eq_goodQ, Bool.eq_false_iff]
        intro hcontra
        rw [goodQ_true_iff] at hcontra
        have hc := hcontra.1
        rw [Bool.and_eq_true] at hc
        have hcc := hc.1
        rw [he, cand_eq_strict, strict_irrefl] at hcc
        exact Bool.false_ne_true hcc
      · rw [if_neg h1]
        by_cases h2 : childCandidate node e = true
        · rw [if_pos h2]
          have hiff : ((pre.filter (goodChild S node accept)).any
                fun oc => weakContains oc e) = true
              ↔ ∃ m ∈ S, (childCandidate node m && accept m) = true ∧
                  strictlyContains m e = true := by
            constructor
            · intro hany
              obtain ⟨oc, hoc, hw⟩ := List.any_eq_true.mp hany
              have hocf := List.mem_filter.mp hoc
              have hocS : oc ∈ S := by
                rw [hS]
                exact List.mem_append_left _ hocf.1
              have hg := hocf.2
              rw [goodChild_eq_goodQ, goodQ_true_iff] at hg
              exact ⟨oc, hocS, hg.1, weak_strict hw (hePre oc hocf.1)⟩
            · rintro ⟨m, hmS, hQm, hsm⟩
              have hexists : ∃ mm ∈ S,
                  (childCandidate node mm && accept mm) = true ∧
                    strictlyContains mm e = true := ⟨m, hmS, hQm, hsm⟩
              obtain ⟨mx, hmxS, ⟨hQmx, hsmx⟩, hgood⟩ := exists_maximal_container hexists
              have hmxne : mx.ts ≠ e.ts :=
                ts_ne_of_mem Hts hmxS heS (strict_ne hsmx)
              have hmxlt : mx.ts < e.ts := by
                have hle := (strict_iff.mp hsmx).1
                omega
              refine List.any_eq_true.mpr ⟨mx, ?_, strict_weak hsmx⟩
              refine List.mem_filter.mpr ⟨hPreMem mx hmxS hmxlt, ?_⟩
              rw [goodChild_eq_goodQ]
              exact hgood
          by_cases h3 : ((pre.filter (goodChild S node accept)).any
              fun oc => weakContains oc e) = true
          · rw [if_pos h3]
            obtain ⟨m, hmS, hQm, hsm⟩ := hiff.mp h3
            refine (hfe ?_).symm
            rw [goodChild_eq_goodQ, Bool.eq_false_iff]
            intro hcontra
            rw [goodQ_true_iff] at hcontra
            exact hcontra.2 m hmS ⟨hQm, hsm⟩
          · rw [if_neg h3]
            by_cases h4 : accept e = true
            · rw [if_pos h4]
              refine (hfe2 ?_).symm
              rw [goodChild_eq_goodQ, goodQ_true_iff]
              constructor
              · rw [Bool.and_eq_true]
                exact ⟨h2, h4⟩
              · rintro m hm ⟨hQm, hsm⟩
                exact h3 (hiff.mpr ⟨m, hm, hQm, hsm⟩)
            · rw [if_neg h4]
              refine (hfe ?_).symm
              rw [goodChild_eq_goodQ, Bool.eq_false_iff]
              intro hcontra
              rw [goodQ_true_iff] at hcontra
              have hc := hcontra.1
              rw [Bool.and_eq_true] at hc
              exact h4 hc.2
        · rw [if_neg h2]
          refine (hfe ?_).symm
          rw [goodChild_eq_goodQ, Bool.eq_false_iff]
          intro hcontra
          rw [goodQ_true_iff] at hcontra
          have hc := hcontra.1
          rw [Bool.and_eq_true] at hc
          exact h2 hc.1
    rw [List.foldl_cons, hstep]
    exact ih (pre ++ [e]) (by rw [hS, List.append_assoc]; rfl)

lemma childScan_characterization (S : List Event) (node : Event) (accept : Event → Bool)
    (Hsort : List.Sorted tsLe S) (Hts : S.Pairwise fun a b => a.ts ≠ b.ts) :
    List.foldl (stepGeneric node accept) [] S = S.filter (goodChild S node accept) := by
  have h := scan_invariant S node accept Hsort Hts S [] rfl
  simpa using h

lemma childrenExcel_eq_filter (S : List Event) (node : Event)
    (Hsort : List.Sorted tsLe S) (Hts : S.Pairwise fun a b => a.ts ≠ b.ts) :
    childrenExcel S node = S.filter (goodChild S node fun _ => true) := by
  unfold childrenExcel childScanExcel
  rw [childStepExcel_eq_generic, childScan_characterization S node _ Hsort Hts]
  exact sortByTs_eq_of_sorted (Hsort.filter _)

lemma childrenNvtx_eq_filter (S : List Event) (node : Event)
    (Hsort : List.Sorted tsLe S) (Hts : S.Pairwise fun a b => a.ts ≠ b.ts) :
    childrenNvtx S node = S.filter (goodChild S node (acceptNvtx node)) := by
  unfold childrenNvtx childScanNvtx
  rw [childStepNvtx_eq_generic, childScan_characterization S node _ Hsort Hts]
  exact sortByTs_eq_of_sorted (Hsort.filter _)

/-- C2 amended: when the working list is sorted by start and all starts are
pairwise distinct, the claim holds for the excel builder: the retained
children are exactly the candidates no other candidate strictly contains —
membership is order-free.  Under additionally pairwise-distinct end times the
nvtx builder computes the same children.  (Without these hypotheses the claim
is false: the one-pass filter checks only previously retained candidates, and
uses weak containment — see the counterexample.) -/
theorem children_minimal_of_distinct_starts (S : List Event) (node : Event)
    (Hsort : List.Sorted tsLe S) (Hts : S.Pairwise fun a b => a.ts ≠ b.ts) :
    (∀ e, e ∈ childrenExcel S node ↔
        e ∈ S ∧ strictlyContains node e = true ∧
          ∀ m ∈ S, strictlyContains node m = true → strictlyContains m e = false) ∧
    (node ∈ S → (S.Pairwise fun a b => endTime a ≠ endTime b) →
      childrenNvtx S node = childrenExcel S node) := by
  constructor
  · intro e
    rw [childrenExcel_eq_filter S node Hsort Hts, List.mem_filter,
      goodChild_eq_goodQ, goodQ_true_iff]
    constructor
    · rintro ⟨heS, h1, h3⟩
      rw [Bool.and_eq_true, cand_eq_strict] at h1
      refine ⟨heS, h1.1, ?_⟩
      intro m hm hsm
      rw [Bool.eq_false_iff]
      intro hsme
      refine h3 m hm ⟨?_, hsme⟩
      rw [Bool.and_eq_true, cand_eq_strict]
      exact ⟨hsm, rfl⟩
    · rintro ⟨heS, hstrict, h3⟩
      refine ⟨heS, ?_, ?_⟩
      · rw [Bool.and_eq_true, cand_eq_strict]
        exact ⟨hstrict, rfl⟩
      · rintro m hm ⟨hQm, hsme⟩
        rw [Bool.and_eq_true, cand_eq_strict] at hQm
        have hf := h3 m hm hQm.1
        rw [hsme] at hf
        exact Bool.false_ne_true hf.symm
  · intro hnodeS Hend
    rw [childrenNvtx_eq_filter S node Hsort Hts, childrenExcel_eq_filter S node Hsort Hts]
    apply List.filter_congr
    intro x hxS
    have hacc : ∀ m ∈ S, childCandidate node m = true → acceptNvtx node m = true := by
      intro m hm hcand
      rw [cand_eq_strict] at hcand
      have htsne : node.ts ≠ m.ts := ts_ne_of_mem Hts hnodeS hm (strict_ne hcand)
      have hendne : endTime node ≠ endTime m :=
        List.Pairwise.forall (fun _ _ h => Ne.symm h) Hend hnodeS hm (strict_ne hcand)
      have harith := strict_iff.mp hcand
      unfold acceptNvtx
      rw [Bool.or_eq_true]
      right
      rw [Bool.and_eq_true, decide_eq_true_eq, decide_eq_true_eq]
      constructor
      · omega
      · omega
    rw [goodChild_eq_goodQ, goodChild_eq_goodQ, Bool.eq_iff_iff,
      goodQ_true_iff, goodQ_true_iff]
    constructor
    · rintro ⟨h1, h3⟩
      rw [Bool.and_eq_true] at h1
      refine ⟨by rw [Bool.and_eq_true]; exact ⟨h1.1, rfl⟩, ?_⟩
      rintro m hm ⟨hQm, hsm⟩
      rw [Bool.and_eq_true] at hQm
      refine h3 m hm ⟨?_, hsm⟩
      rw [Bool.and_eq_true]
      exact ⟨hQm.1, hacc m hm hQm.1⟩
    · rintro ⟨h1, h3⟩
      rw [Bool.and_eq_true] at h1
      refine ⟨by rw [Bool.and_eq_true]; exact ⟨h1.1, hacc x hxS h1.1⟩, ?_⟩
      rintro m hm ⟨hQm, hsm⟩
      rw [Bool.and_eq_true] at hQm
      refine h3 m hm ⟨?_, hsm⟩
      rw [Bool.and_eq_true]
      exact ⟨hQm.1, rfl⟩

theorem children_minimal_witness :
    (⟨"a", 5, 10⟩ : Event) ∈
      childrenExcel [⟨"N", 0, 100⟩, ⟨"a", 5, 10⟩, ⟨"b", 20, 9⟩] ⟨"N", 0, 100⟩ :=
  ((children_minimal_of_distinct_starts [⟨"N", 0, 100⟩, ⟨"a", 5, 10⟩, ⟨"b", 20, 9⟩]
      ⟨"N", 0, 100⟩ (by decide) (by decide)).1 ⟨"a", 5, 10⟩).mpr
    ⟨by decide, by decide, by decide⟩

/-! ### Partition of a laminar family by its outermost members -/

lemma nodup_of_distinct_ts {S : List Event} (Hts : S.Pairwise fun a b => a.ts ≠ b.ts) :
    S.Nodup :=
  Hts.imp fun h => fun he => h (by rw [he])

/-- For a laminar family with pairwise-distinct starts and non-negative
durations: the events satisfying a downward-closed predicate `Q` are exactly
partitioned into the `Q`-maximal cells — each cell being its head event
together with everything strictly inside it. -/
lemma partition_perm (S : List Event)
    (Hts : S.Pairwise fun a b => a.ts ≠ b.ts)
    (Hdur : ∀ e ∈ S, 0 ≤ e.dur)
    (Hlam : ∀ a ∈ S, ∀ b ∈ S, laminarPair a b)
    (Q : Event → Bool)
    (Hdc : ∀ c ∈ S, ∀ x ∈ S, Q c = true → strictlyContains c x = true → Q x = true) :
    ((S.filter (goodQ S Q)).flatMap fun c =>
        c :: S.filter fun x => strictlyContains c x).Perm (S.filter Q) := by
  have hnodupS : S.Nodup := nodup_of_distinct_ts Hts
  have hkill : ∀ a ∈ S, ∀ b, goodQ S Q b = true → Q a = true →
      strictlyContains a b = true → False := by
    intro a ha b hgb hQa hsab
    rw [goodQ_true_iff] at hgb
    exact hgb.2 a ha ⟨hQa, hsab⟩
  have huniq : ∀ c1 ∈ S, ∀ c2 ∈ S, goodQ S Q c1 = true → goodQ S Q c2 = true →
      c1 ≠ c2 → ∀ x, x ∈ (c1 :: S.filter fun y => strictlyContains c1 y) →
        x ∈ (c2 :: S.filter fun y => strictlyContains c2 y) → False := by
    intro c1 hc1 c2 hc2 hg1 hg2 hne x hx1 hx2
    have hQ1 : Q c1 = true := (goodQ_true_iff.mp hg1).1
    have hQ2 : Q c2 = true := (goodQ_true_iff.mp hg2).1
    rcases List.mem_cons.mp hx1 with rfl | hx1
    · rcases List.mem_cons.mp hx2 with heq | hx2
      · exact hne heq
      · have hf := List.mem_filter.mp hx2
        exact hkill c2 hc2 x hg1 hQ2 hf.2
    · have hf1 := List.mem_filter.mp hx1
      rcases List.mem_cons.mp hx2 with rfl | hx2
      · exact hkill c1 hc1 x hg2 hQ1 hf1.2
      · have hf2 := List.mem_filter.mp hx2
        have hs1 : strictlyContains c1 x = true := hf1.2
        have hs2 : strictlyContains c2 x = true := hf2.2
        have hxS : x ∈ S := hf1.1
        rcases Hlam c1 hc1 c2 hc2 with heq | h12 | h21 | hd1 | hd2
        · exact hne heq
        · exact hkill c1 hc1 c2 hg2 hQ1 h12
        · exact hkill c2 hc2 c1 hg1 hQ2 h21
        · have ha1 := strict_iff.mp hs1
          have ha2 := strict_iff.mp hs2
          have hdx := Hdur x hxS
          have htsne : x.ts ≠ c2.ts :=
            ts_ne_of_mem Hts hxS hc2 (strict_ne hs2).symm
          have hex : endTime x = x.ts + x.dur := rfl
          omega
        · have ha1 := strict_iff.mp hs1
          have ha2 := strict_iff.mp hs2
          have hdx := Hdur x hxS
          have htsne : x.ts ≠ c1.ts :=
            ts_ne_of_mem Hts hxS hc1 (strict_ne hs1).symm
          have hex : endTime x = x.ts + x.dur := rfl
          omega
  have hLHS_nodup : ((S.filter (goodQ S Q)).flatMap fun c =>
      c :: S.filter fun x => strictlyContains c x).Nodup := by
    rw [List.nodup_flatMap]
    constructor
    · intro c _
      rw [List.nodup_cons]
      constructor
      · intro hcf
        have hcc := (List.mem_filter.mp hcf).2
        rw [strict_irrefl] at hcc
        exact Bool.false_ne_true hcc
      · exact hnodupS.filter _
    · have hPne : (S.filter (goodQ S Q)).Pairwise (· ≠ ·) := hnodupS.filter _
      refine hPne.imp_of_mem ?_
      intro a b ha hb hne
      have haf := List.mem_filter.mp ha
      have hbf := List.mem_filter.mp hb
      intro x hxa hxb
      exact huniq a haf.1 b hbf.1 haf.2 hbf.2 hne x hxa hxb
  have hmem : ∀ x, (x ∈ ((S.filter (goodQ S Q)).flatMap fun c =>
      c :: S.filter fun y => strictlyContains c y)) ↔ x ∈ S ∧ Q x = true := by
    intro x
    rw [List.mem_flatMap]
    constructor
    · rintro ⟨c, hc, hx⟩
      have hcf := List.mem_filter.mp hc
      rcases List.mem_cons.mp hx with rfl | hx
      · exact ⟨hcf.1, (goodQ_true_iff.mp hcf.2).1⟩
      · have hxf := List.mem_filter.mp hx
        exact ⟨hxf.1, Hdc c hcf.1 x hxf.1 (goodQ_true_iff.mp hcf.2).1 hxf.2⟩
    · rintro ⟨hxS, hQx⟩
      by_cases hgx : goodQ S Q x = true
      · exact ⟨x, List.mem_filter.mpr ⟨hxS, hgx⟩, List.mem_cons_self _ _⟩
      · have hex : ∃ m ∈ S, Q m = true ∧ strictlyContains m x = true := by
          by_contra hno
          apply hgx
          rw [goodQ_true_iff]
          refine ⟨hQx, ?_⟩
          rintro m hm ⟨hQm, hsm⟩
          exact hno ⟨m, hm, hQm, hsm⟩
        obtain ⟨mx, hmxS, ⟨hQmx, hsmx⟩, hgood⟩ := exists_maximal_container hex
        exact ⟨mx, List.mem_filter.mpr ⟨hmxS, hgood⟩,
          List.mem_cons_of_mem _ (List.mem_filter.mpr ⟨hxS, hsmx⟩)⟩
  have hRHS_nodup : (S.filter Q).Nodup := hnodupS.filter _
  have hsub1 : ((S.filter (goodQ S Q)).flatMap fun c =>
      c :: S.filter fun y => strictlyContains c y) ⊆ S.filter Q := by
    intro x hx
    have hm := (hmem x).mp hx
    exact List.mem_filter.mpr ⟨hm.1, hm.2⟩
  have hsub2 : S.filter Q ⊆ ((S.filter (goodQ S Q)).flatMap fun c =>
      c :: S.filter fun y => strictlyContains c y) := by
    intro x hx
    have hxf := List.mem_filter.mp hx
    exact (hmem x).mpr ⟨hxf.1, hxf.2⟩
  exact (hLHS_nodup.subperm hsub1).antisymm (hRHS_nodup.subperm hsub2)

/-! ### Pre-order output of a laminar family: exactly one entry per event -/

lemma flatMap_perm_of_forall {α β : Type} {l : List α} {f g : α → List β}
    (h : ∀ a ∈ l, (f a).Perm (g a)) : (l.flatMap f).Perm (l.flatMap g) := by
  induction l with
  | nil => exact List.Perm.refl _
  | cons a l ih =>
    rw [List.flatMap_cons, List.flatMap_cons]
    exact (h a (List.mem_cons_self a l)).append
      (ih fun x hx => h x (List.mem_cons_of_mem _ hx))

lemma buildRecExcel_perm (S : List Event)
    (Hsort : List.Sorted tsLe S)
    (Hts : S.Pairwise fun a b => a.ts ≠ b.ts)
    (Hdur : ∀ e ∈ S, 0 ≤ e.dur)
    (Hlam : ∀ a ∈ S, ∀ b ∈ S, laminarPair a b) :
    ∀ (fuel : Nat) (node : Event) (depth : Nat),
      (S.filter fun e => strictlyContains node e).length < fuel →
      ((buildRecExcel fuel S node depth).map keyOf).Perm
        (node :: S.filter fun e => strictlyContains node e) := by
  intro fuel
  induction fuel with
  | zero => exact fun node depth h => absurd h (Nat.not_lt_zero _)
  | succ k ih =>
    intro node depth h
    have hchq : childrenExcel S node
        = S.filter (goodQ S fun m => strictlyContains node m) := by
      rw [childrenExcel_eq_filter S node Hsort Hts, goodChild_eq_goodQ]
      have hfun : (fun m => childCandidate node m && true)
          = fun m => strictlyContains node m := by
        funext m
        rw [Bool.and_true, cand_eq_strict]
      rw [hfun]
    simp only [buildRecExcel, List.map_cons]
    have hkey : keyOf (mkEntry node depth) = node := rfl
    rw [hkey, List.map_flatMap]
    refine List.Perm.cons node ?_
    have hstep1 : ((childrenExcel S node).flatMap fun c =>
        (buildRecExcel k S c (depth + 1)).map keyOf).Perm
        ((childrenExcel S node).flatMap fun c =>
          c :: S.filter fun e => strictlyContains c e) := by
      apply flatMap_perm_of_forall
      intro c hc
      rcases childrenExcel_sub hc with ⟨hcS, hcs⟩
      have hlt := measure_lt hcS hcs
      exact ih c (depth + 1) (by omega)
    refine hstep1.trans ?_
    rw [hchq]
    exact partition_perm S Hts Hdur Hlam _ (fun c _ x _ hQc hsx => strict_trans hQc hsx)

/-! ### Root selection as the outermost filter -/

lemma is_root_iff {S : List Event} {e : Event} :
    is_root S e = true ↔ ∀ m ∈ S, strictlyContains m e = false := by
  unfold is_root
  rw [Bool.not_eq_true']
  constructor
  · intro h m hm
    rw [Bool.eq_false_iff]
    intro hs
    have hany : (S.any fun other => !(other == e) && rootContains other e) = true := by
      refine List.any_eq_true.mpr ⟨m, hm, ?_⟩
      rw [Bool.and_eq_true]
      constructor
      · rw [Bool.not_eq_true', beq_eq_false_iff_ne]
        exact strict_ne hs
      · rw [root_eq_strict]
        exact hs
    rw [h] at hany
    exact Bool.false_ne_true hany
  · intro h
    rw [Bool.eq_false_iff]
    intro hany
    obtain ⟨m, hm, hp⟩ := List.any_eq_true.mp hany
    rw [Bool.and_eq_true] at hp
    have hs := hp.2
    rw [root_eq_strict] at hs
    have hf := h m hm
    rw [hs] at hf
    exact Bool.false_ne_true hf.symm

lemma root_events_excel_eq_filter (S : List Event) :
    root_events_excel S = S.filter (goodQ S fun _ => true) := by
  unfold root_events_excel
  apply List.filter_congr
  intro e _
  rw [Bool.eq_iff_iff, is_root_iff, goodQ_true_iff]
  constructor
  · intro h
    refine ⟨rfl, ?_⟩
    rintro m hm ⟨_, hsm⟩
    have hf := h m hm
    rw [hsm] at hf
    exact Bool.false_ne_true hf.symm
  · rintro ⟨_, h3⟩
    intro m hm
    rw [Bool.eq_false_iff]
    intro hsm
    exact h3 m hm ⟨rfl, hsm⟩

lemma root_events_excel_ne_nil {S : List Event} (hne : S ≠ []) :
    root_events_excel S ≠ [] := by
  obtain ⟨m, hmS, hmax⟩ := exists_max_strict S hne
  have hmem : m ∈ root_events_excel S := by
    unfold root_events_excel
    refine List.mem_filter.mpr ⟨hmS, ?_⟩
    rw [is_root_iff]
    exact hmax
  exact List.ne_nil_of_mem hmem

/-- The nvtx child collection agrees with the excel one on a sorted working
list with pairwise-distinct starts and ends: every candidate of a node of the
list is then strictly inside on both boundaries, so the extra nvtx test is
vacuous. -/
lemma childrenNvtx_eq_childrenExcel (S : List Event) (node : Event)
    (Hsort : List.Sorted tsLe S) (Hts : S.Pairwise fun a b => a.ts ≠ b.ts)
    (Hend : S.Pairwise fun a b => endTime a ≠ endTime b) (hnodeS : node ∈ S) :
    childrenNvtx S node = childrenExcel S node := by
  rw [childrenNvtx_eq_filter S node Hsort Hts, childrenExcel_eq_filter S node Hsort Hts]
  apply List.filter_congr
  intro x hxS
  have hacc : ∀ m ∈ S, childCandidate node m = true → acceptNvtx node m = true := by
    intro m hm hcand
    rw [cand_eq_strict] at hcand
    have htsne : node.ts ≠ m.ts := ts_ne_of_mem Hts hnodeS hm (strict_ne hcand)
    have hendne : endTime node ≠ endTime m :=
      List.Pairwise.forall (fun _ _ h => Ne.symm h) Hend hnodeS hm (strict_ne hcand)
    have harith := strict_iff.mp hcand
    unfold acceptNvtx
    rw [Bool.or_eq_true]
    right
    rw [Bool.and_eq_true, decide_eq_true_eq, decide_eq_true_eq]
    constructor
    · omega
    · omega
  rw [goodChild_eq_goodQ, goodChild_eq_goodQ, Bool.eq_iff_iff,
    goodQ_true_iff, goodQ_true_iff]
  constructor
  · rintro ⟨h1, h3⟩
    rw [Bool.and_eq_true] at h1
    refine ⟨by rw [Bool.and_eq_true]; exact ⟨h1.1, rfl⟩, ?_⟩
    rintro m hm ⟨hQm, hsm⟩
    rw [Bool.and_eq_true] at hQm
    refine h3 m hm ⟨?_, hsm⟩
    rw [Bool.and_eq_true]
    exact ⟨hQm.1, hacc m hm hQm.1⟩
  · rintro ⟨h1, h3⟩
    rw [Bool.and_eq_true] at h1
    refine ⟨by rw [Bool.and_eq_true]; exact ⟨h1.1, hacc x hxS h1.1⟩, ?_⟩
    rintro m hm ⟨hQm, hsm⟩
    rw [Bool.and_eq_true] at hQm
    refine h3 m hm ⟨?_, hsm⟩
    rw [Bool.and_eq_true]
    exact ⟨hQm.1, rfl⟩

/-- Under the same hypotheses the two fuelled recursions coincide on every
node of the working list. -/
lemma buildRec_agree (S : List Event)
    (Hsort : List.Sorted tsLe S) (Hts : S.Pairwise fun a b => a.ts ≠ b.ts)
    (Hend : S.Pairwise fun a b => endTime a ≠ endTime b) :
    ∀ (fuel : Nat) (node : Event), node ∈ S → ∀ depth,
      buildRecNvtx fuel S node depth = buildRecExcel fuel S node depth := by
  intro fuel
  induction fuel with
  | zero => intro node _ depth; rfl
  | succ k ih =>
    intro node hnode depth
    simp only [buildRecNvtx, buildRecExcel]
    rw [childrenNvtx_eq_childrenExcel S node Hsort Hts Hend hnode]
    congr 1
    apply flatMap_congr_mem
    intro c hc
    exact ih c (childrenExcel_sub hc).1 (depth + 1)

/-- When no event is digit-named, the nvtx root exclusion is vacuous. -/
lemma root_events_nvtx_eq_excel (S : List Event)
    (Hnd : ∀ e ∈ S, pyIsDigit e.name = false) :
    root_events_nvtx S = root_events_excel S := by
  unfold root_events_nvtx root_events_excel
  apply List.filter_congr
  intro e he
  rw [Hnd e he, Bool.not_false, Bool.and_true]

/-- C1 amended: for a **non-empty** input whose intervals have pairwise
distinct starts, non-negative durations, and are pairwise laminar (strictly
nested or disjoint), `build_module_hierarchy` produces exactly one entry per
input interval: the keys of the output are a permutation of the input, the
output length equals the input count, and every input interval appears exactly
once.  When additionally no interval name is all digits and end times are
pairwise distinct, `parse_trace_hierarchy` returns that same output, so the
one-entry-per-input guarantee holds for it as well.  (The counterexample shows
everything dropped here is necessary: equal-span nested duplicates are
dropped, equal-start nested pairs are emitted twice, an empty input raises,
and on laminar distinct-start inputs the nvtx builder still loses digit-named
roots and end-sharing children.) -/
theorem hierarchy_output_exactly_once (events : List Event)
    (hne : events ≠ [])
    (Hts : events.Pairwise fun a b => a.ts ≠ b.ts)
    (Hdur : ∀ e ∈ events, 0 ≤ e.dur)
    (Hlam : ∀ a ∈ events, ∀ b ∈ events, laminarPair a b) :
    ∃ out, build_module_hierarchy events = some out ∧
      ((out.map keyOf).Perm events) ∧
      out.length = events.length ∧
      (∀ e ∈ events, (out.map keyOf).count e = 1) ∧
      ((∀ e ∈ events, pyIsDigit e.name = false) →
        (events.Pairwise fun a b => endTime a ≠ endTime b) →
        (parse_trace_hierarchy events).1 = some out) := by
  have hperm : (sortByTs events).Perm events := sortByTs_perm events
  have HtsS : (sortByTs events).Pairwise fun a b => a.ts ≠ b.ts :=
    (hperm.pairwise_iff fun h => Ne.symm h).mpr Hts
  have HsortS := sortByTs_sorted events
  have HdurS : ∀ e ∈ sortByTs events, 0 ≤ e.dur :=
    fun e he => Hdur e (hperm.mem_iff.mp he)
  have HlamS : ∀ a ∈ sortByTs events, ∀ b ∈ sortByTs events, laminarPair a b :=
    fun a ha b hb => Hlam a (hperm.mem_iff.mp ha) b (hperm.mem_iff.mp hb)
  have hSne : sortByTs events ≠ [] := sortByTs_ne_nil hne
  have hroots_ne := root_events_excel_ne_nil hSne
  have hisEmpty : (root_events_excel (sortByTs events)).isEmpty = false := by
    rw [Bool.eq_false_iff]
    intro h
    exact hroots_ne (List.isEmpty_iff.mp h)
  have hbuild : build_module_hierarchy events
      = some ((sortByTs (root_events_excel (sortByTs events))).flatMap fun r =>
          buildRecExcel ((sortByTs events).length + 1) (sortByTs events) r 0) := by
    unfold build_module_hierarchy used_roots_excel
    rw [if_neg (by rw [hisEmpty]; exact Bool.false_ne_true)]
    rfl
  have hroots_sorted : sortByTs (root_events_excel (sortByTs events))
      = root_events_excel (sortByTs events) := by
    apply sortByTs_eq_of_sorted
    unfold root_events_excel
    exact HsortS.filter _
  have hkeyperm : (((sortByTs (root_events_excel (sortByTs events))).flatMap fun r =>
      buildRecExcel ((sortByTs events).length + 1) (sortByTs events) r 0).map
        keyOf).Perm events := by
    rw [hroots_sorted, List.map_flatMap]
    have h1 : ((root_events_excel (sortByTs events)).flatMap fun r =>
        (buildRecExcel ((sortByTs events).length + 1) (sortByTs events) r 0).map
          keyOf).Perm
        ((root_events_excel (sortByTs events)).flatMap fun r =>
          r :: (sortByTs events).filter fun e => strictlyContains r e) := by
      apply flatMap_perm_of_forall
      intro r _
      apply buildRecExcel_perm (sortByTs events) HsortS HtsS HdurS HlamS
      have hlen := List.length_filter_le (fun e => strictlyContains r e) (sortByTs events)
      omega
    refine h1.trans ?_
    rw [root_events_excel_eq_filter]
    refine (partition_perm (sortByTs events) HtsS HdurS HlamS (fun _ => true)
      (fun c _ x _ _ _ => rfl)).trans ?_
    rw [List.filter_true]
    exact hperm
  refine ⟨_, hbuild, hkeyperm, ?_, ?_, ?_⟩
  · have hl := hkeyperm.length_eq
    rw [List.length_map] at hl
    exact hl
  · intro e he
    rw [hkeyperm.count_eq e]
    exact List.count_eq_one_of_mem (nodup_of_distinct_ts Hts) he
  · intro Hnd Hend
    have HndS : ∀ e ∈ sortByTs events, pyIsDigit e.name = false :=
      fun e he => Hnd e (hperm.mem_iff.mp he)
    have HendS : (sortByTs events).Pairwise fun a b => endTime a ≠ endTime b :=
      (hperm.pairwise_iff fun h => Ne.symm h).mpr Hend
    have hre : root_events_nvtx (sortByTs events) = root_events_excel (sortByTs events) :=
      root_events_nvtx_eq_excel _ HndS
    have hisEmpty2 : (root_events_nvtx (sortByTs events)).isEmpty = false := by
      rw [hre]
      exact hisEmpty
    have hparse : (parse_trace_hierarchy events).1
        = some ((sortByTs (root_events_nvtx (sortByTs events))).flatMap fun r =>
            buildRecNvtx ((sortByTs events).length + 1) (sortByTs events) r 0) := by
      unfold parse_trace_hierarchy used_roots_nvtx
      rw [if_neg (by rw [hisEmpty2]; exact Bool.false_ne_true)]
      rfl
    rw [hparse, hre]
    congr 1
    apply flatMap_congr_mem
    intro r hr
    have hr2 : r ∈ root_events_excel (sortByTs events) := (sortByTs_perm _).mem_iff.mp hr
    have hrS : r ∈ sortByTs events := by
      unfold root_events_excel at hr2
      exact (List.mem_filter.mp hr2).1
    exact buildRec_agree (sortByTs events) HsortS HtsS HendS
      ((sortByTs events).length + 1) r hrS 0

theorem hierarchy_output_exactly_once_witness :
    (build_module_hierarchy [⟨"A", 0, 100⟩, ⟨"B", 10, 20⟩, ⟨"C", 50, 10⟩]).map
      List.length = some 3 ∧
    ((parse_trace_hierarchy [⟨"A", 0, 100⟩, ⟨"B", 10, 20⟩, ⟨"C", 50, 10⟩]).1).map
      List.length = some 3 := by
  obtain ⟨out, hout, _, hlen, _, hparse⟩ := hierarchy_output_exactly_once
    [⟨"A", 0, 100⟩, ⟨"B", 10, 20⟩, ⟨"C", 50, 10⟩]
    (by decide) (by decide) (by decide) (by decide)
  have hp := hparse (by decide) (by decide)
  constructor
  · rw [hout, Option.map_some', hlen]
    rfl
  · rw [hp, Option.map_some', hlen]
    rfl
